import Mathlib

/-!
# Verification of `Tr-merge-utlity-local.py`

A shallow embedding of the commit-staging utility
(`src/Tr-merge-utlity-local.py`) together with proofs of the specified
properties.  The program is a single linear pipeline:

* `parse_date_input`     — `datetime.strptime(s, "%d/%m/%Y")` (line 11-16);
* `get_commits_between_dates` — date validation + backend query + descending
  re-sort (line 19-41);
* `copy_files_to_staging` — per-file copy into the staging directory with
  warning/skip semantics (line 44-65);
* `create_manifest`      — the JSON manifest `{"changed_files": [...]}`
  (line 68-76);
* `zip_staging_folder`   — recursive `os.walk` + ZIP entry naming by
  `os.path.relpath` (line 79-89);
* the interactive selection loop of `main` (line 146-171).

Effectful pieces are embedded by making the environment explicit: the
working-tree existence check and the possibility of a copy error become
boolean-valued oracles, the git backend becomes a function argument, the
staging directory is a set of relative paths threaded through the loop
state, and `print` diagnostics are accumulated message lists.  A copy
failure is modelled atomically (no partial destination file).
-/

/-! ## Small set-as-list helpers

The Python code keeps `staged_files` and `overall_changed_files` as `set`
objects.  We model a set of path strings as a duplicate-free list:
`fsInsert` is `set.add` (also the effect of writing a file into the staging
directory: overwriting an existing path leaves the path set unchanged), and
`setUnion` is `set.update`. -/

def fsInsert (f : String) (l : List String) : List String :=
  if f ∈ l then l else l ++ [f]

def setUnion (a b : List String) : List String :=
  b.foldl (fun acc f => fsInsert f acc) a

theorem mem_fsInsert (a f : String) (l : List String) :
    a ∈ fsInsert f l ↔ a = f ∨ a ∈ l := by
  unfold fsInsert
  split <;> rename_i h
  · constructor
    · exact fun hm => Or.inr hm
    · rintro (rfl | hm) <;> assumption
  · simp only [List.mem_append, List.mem_singleton]
    tauto

theorem mem_setUnion (a : String) (x y : List String) :
    a ∈ setUnion x y ↔ a ∈ x ∨ a ∈ y := by
  induction y generalizing x with
  | nil => simp [setUnion]
  | cons f rest ih =>
    unfold setUnion at *
    simp only [List.foldl_cons]
    rw [ih (fsInsert f x), mem_fsInsert]
    simp only [List.mem_cons]
    tauto

theorem setUnion_absorb (x y : List String) (h : ∀ a ∈ y, a ∈ x) :
    setUnion x y = x := by
  induction y generalizing x with
  | nil => rfl
  | cons f rest ih =>
    unfold setUnion at *
    simp only [List.foldl_cons]
    have hf : f ∈ x := h f (List.mem_cons_self f rest)
    rw [show fsInsert f x = x from if_pos hf]
    exact ih x (fun a ha => h a (List.mem_cons_of_mem f ha))

theorem toFinset_fsInsert (f : String) (l : List String) :
    (fsInsert f l).toFinset = insert f l.toFinset := by
  unfold fsInsert
  split <;> rename_i h
  · rw [Finset.insert_eq_self.2 (List.mem_toFinset.2 h)]
  · ext a
    simp only [List.toFinset_append, List.mem_toFinset, Finset.mem_union,
      Finset.mem_insert, List.toFinset_cons, List.toFinset_nil,
      insert_emptyc_eq, Finset.mem_singleton]
    tauto

theorem toFinset_setUnion (x y : List String) :
    (setUnion x y).toFinset = x.toFinset ∪ y.toFinset := by
  ext a
  simp only [List.mem_toFinset, mem_setUnion, Finset.mem_union]

/-! ## Date parsing (`parse_date_input`, source lines 11-16)

`datetime.strptime(date_str, "%d/%m/%Y")` matches the whole input against
the anchored pattern `%d` `/` `%m` `/` `%Y` where `%d` is one or two digits
with value 1..31, `%m` is one or two digits with value 1..12 and `%Y` is
exactly four digits; the `datetime` constructor then rejects a day that
does not exist in the given month/year (and year 0).  Since `/` is not a
digit, the match factors the input uniquely at the two separators, which is
what `splitSl` computes. -/

structure Date where
  day : Nat
  month : Nat
  year : Nat
deriving DecidableEq, Repr

def consField (c : Char) (r : List (List Char)) : List (List Char) :=
  match r with
  | [] => [[c]]
  | f :: fs => (c :: f) :: fs

def splitSl : List Char → List (List Char)
  | [] => [[]]
  | c :: rest => if c = '/' then [] :: splitSl rest else consField c (splitSl rest)

def natOfDigits (cs : List Char) : Nat :=
  cs.foldl (fun n c => n * 10 + (c.toNat - 48)) 0

def allDigits (cs : List Char) : Bool :=
  cs.all Char.isDigit

def dayFieldOK (cs : List Char) : Bool :=
  allDigits cs && (cs.length = 1 || cs.length = 2) &&
    decide (1 ≤ natOfDigits cs) && decide (natOfDigits cs ≤ 31)

def monthFieldOK (cs : List Char) : Bool :=
  allDigits cs && (cs.length = 1 || cs.length = 2) &&
    decide (1 ≤ natOfDigits cs) && decide (natOfDigits cs ≤ 12)

def yearFieldOK (cs : List Char) : Bool :=
  allDigits cs && (cs.length = 4) && decide (1 ≤ natOfDigits cs)

def isLeapYear (y : Nat) : Bool :=
  y % 4 = 0 && (y % 100 ≠ 0 || y % 400 = 0)

def daysInMonth (m y : Nat) : Nat :=
  if m = 2 then (if isLeapYear y then 29 else 28)
  else if m = 4 ∨ m = 6 ∨ m = 9 ∨ m = 11 then 30
  else 31

def parse_date_input (s : String) : Option Date :=
  match splitSl s.data with
  | [ds, ms, ys] =>
    if dayFieldOK ds && monthFieldOK ms && yearFieldOK ys then
      if natOfDigits ds ≤ daysInMonth (natOfDigits ms) (natOfDigits ys) then
        some ⟨natOfDigits ds, natOfDigits ms, natOfDigits ys⟩
      else none
    else none
  | _ => none

theorem splitSl_ne_nil (cs : List Char) : splitSl cs ≠ [] := by
  cases cs with
  | nil => simp [splitSl]
  | cons c rest =>
    simp only [splitSl]
    split
    · simp
    · cases splitSl rest <;> simp [consField]

def joinSl : List (List Char) → List Char
  | [] => []
  | [a] => a
  | a :: rest => a ++ '/' :: joinSl rest

theorem joinSl_splitSl (cs : List Char) : joinSl (splitSl cs) = cs := by
  induction cs with
  | nil => rfl
  | cons c rest ih =>
    cases hr : splitSl rest with
    | nil => exact absurd hr (splitSl_ne_nil rest)
    | cons f fs =>
      rw [hr] at ih
      simp only [splitSl, hr]
      by_cases hc : c = '/'
      · subst hc
        simp only [if_pos rfl]
        cases fs with
        | nil => simpa [joinSl] using ih
        | cons g gs => simpa [joinSl] using ih
      · simp only [if_neg hc, consField]
        cases fs with
        | nil => simpa [joinSl] using ih
        | cons g gs => simpa [joinSl] using ih

theorem splitSl_no_slash (a : List Char) (ha : '/' ∉ a) : splitSl a = [a] := by
  induction a with
  | nil => rfl
  | cons c rest ih =>
    have hc : c ≠ '/' := fun h => ha (h ▸ List.mem_cons_self c rest)
    have hrest : '/' ∉ rest := fun h => ha (List.mem_cons_of_mem c h)
    simp [splitSl, hc, ih hrest, consField]

theorem splitSl_append (a r : List Char) (ha : '/' ∉ a) :
    splitSl (a ++ '/' :: r) = a :: splitSl r := by
  induction a with
  | nil => simp [splitSl]
  | cons c a' ih =>
    have hc : c ≠ '/' := fun h => ha (h ▸ List.mem_cons_self c a')
    have ha' : '/' ∉ a' := fun h => ha (List.mem_cons_of_mem c h)
    simp only [List.cons_append, splitSl, if_neg hc, List.append_eq]
    rw [ih ha']
    simp [consField]

theorem no_slash_of_allDigits (cs : List Char) (h : allDigits cs = true) :
    '/' ∉ cs := by
  intro hmem
  have := List.all_eq_true.1 h '/' hmem
  simp [Char.isDigit] at this


/-- Claim C3: `parse_date_input` accepts exactly the strings of the form
`day/month/year` (day one or two digits with value 1-31, month one or two
digits with value 1-12, year exactly four digits with value at least 1,
and the day existing in the given month and year); on success the returned
calendar date's fields are the numeric values of the three input fields
(a round trip), and every other string — wrong separator, wrong field
order, non-numeric content — yields `none` rather than a partial parse. -/
theorem c3_parse_date_roundtrip :
    (∀ (s : String) (dt : Date), parse_date_input s = some dt →
      ∃ ds ms ys, s.data = ds ++ '/' :: (ms ++ '/' :: ys) ∧
        dayFieldOK ds = true ∧ monthFieldOK ms = true ∧ yearFieldOK ys = true ∧
        natOfDigits ds = dt.day ∧ natOfDigits ms = dt.month ∧
        natOfDigits ys = dt.year ∧ dt.day ≤ daysInMonth dt.month dt.year) ∧
    (∀ ds ms ys, dayFieldOK ds = true → monthFieldOK ms = true →
      yearFieldOK ys = true →
      natOfDigits ds ≤ daysInMonth (natOfDigits ms) (natOfDigits ys) →
      parse_date_input (String.mk (ds ++ '/' :: (ms ++ '/' :: ys))) =
        some ⟨natOfDigits ds, natOfDigits ms, natOfDigits ys⟩) := by
  constructor
  · intro s dt h
    unfold parse_date_input at h
    split at h
    · rename_i ds ms ys hsp
      split at h
      · rename_i hok
        split at h
        · rename_i hle
          rw [Option.some.injEq] at h
          have hok' := hok
          simp only [Bool.and_eq_true] at hok'
          obtain ⟨⟨hd, hm⟩, hy⟩ := hok'
          have hdata : s.data = ds ++ '/' :: (ms ++ '/' :: ys) := by
            have hj := joinSl_splitSl s.data
            rw [hsp] at hj
            simpa [joinSl] using hj.symm
          refine ⟨ds, ms, ys, hdata, hd, hm, hy, ?_, ?_, ?_, ?_⟩ <;>
            simp [← h]
          exact hle
        · exact absurd h (by simp)
      · exact absurd h (by simp)
    · exact absurd h (by simp)
  · intro ds ms ys hd hm hy hle
    have hdds : '/' ∉ ds := no_slash_of_allDigits ds (by
      simp only [dayFieldOK, Bool.and_eq_true] at hd; exact hd.1.1.1)
    have hdms : '/' ∉ ms := no_slash_of_allDigits ms (by
      simp only [monthFieldOK, Bool.and_eq_true] at hm; exact hm.1.1.1)
    have hdys : '/' ∉ ys := no_slash_of_allDigits ys (by
      simp only [yearFieldOK, Bool.and_eq_true] at hy; exact hy.1.1)
    have hsp : splitSl (ds ++ '/' :: (ms ++ '/' :: ys)) = [ds, ms, ys] := by
      rw [splitSl_append ds _ hdds, splitSl_append ms _ hdms,
        splitSl_no_slash ys hdys]
    unfold parse_date_input
    rw [show (String.mk (ds ++ '/' :: (ms ++ '/' :: ys))).data
        = ds ++ '/' :: (ms ++ '/' :: ys) from rfl, hsp]
    simp [hd, hm, hy, hle]

/-- Witness for C3 at the concrete input string `05/06/2020`. -/
theorem c3_witness : parse_date_input "05/06/2020" = some ⟨5, 6, 2020⟩ := by
  have h := c3_parse_date_roundtrip.2 ['0', '5'] ['0', '6'] ['2', '0', '2', '0']
    (by decide) (by decide) (by decide) (by decide)
  have he : String.mk (['0', '5'] ++ '/' :: (['0', '6'] ++ '/' :: ['2', '0', '2', '0']))
      = "05/06/2020" := by decide
  have hv : (⟨natOfDigits ['0', '5'], natOfDigits ['0', '6'],
      natOfDigits ['2', '0', '2', '0']⟩ : Date) = ⟨5, 6, 2020⟩ := by decide
  rw [he, hv] at h
  exact h

/-! ## Commits and the range query (`get_commits_between_dates`, lines 19-41)

A `Commit` carries the fields the program reads from a GitPython commit
object.  The git backend (`repo.iter_commits(branch, since=..., until=...)`)
is an arbitrary function argument; the embedding records in
`QueryResult.backendCalled` whether it was invoked.  `commits.sort(key=
lambda c: c.committed_date, reverse=True)` is a stable sort, whose output
is the same as stable insertion sort by the descending-timestamp preorder
`commitGe`.  The `start_date_obj > end_date_obj` comparison of two
midnight `datetime` values is the lexicographic `dateLtB` on
(year, month, day). -/

structure Commit where
  hexsha : String
  committed_date : Nat
  parents : List String
  message : String
deriving DecidableEq, Repr

def commitGe (a b : Commit) : Prop :=
  b.committed_date ≤ a.committed_date

instance : DecidableRel commitGe :=
  fun a b => inferInstanceAs (Decidable (b.committed_date ≤ a.committed_date))

instance : IsTotal Commit commitGe :=
  ⟨fun a b => (Nat.le_total a.committed_date b.committed_date).symm⟩

instance : IsTrans Commit commitGe :=
  ⟨fun _ _ _ hab hbc => Nat.le_trans hbc hab⟩

def sortDesc (l : List Commit) : List Commit :=
  List.insertionSort commitGe l

def padZeros (k n : Nat) : String :=
  String.mk (List.replicate (k - (toString n).length) '0') ++ toString n

def isoFormat (d : Date) : String :=
  padZeros 4 d.year ++ "-" ++ padZeros 2 d.month ++ "-" ++ padZeros 2 d.day

def dateLtB (a b : Date) : Bool :=
  decide (a.year < b.year) ||
    (decide (a.year = b.year) &&
      (decide (a.month < b.month) ||
        (decide (a.month = b.month) && decide (a.day < b.day))))

structure QueryResult where
  commits : List Commit
  msgs : List String
  backendCalled : Bool
deriving Repr

def get_commits_between_dates (backend : String → String → String → List Commit)
    (branch : String) (start_date_str end_date_str : String) : QueryResult :=
  match parse_date_input start_date_str with
  | none => ⟨[], ["Invalid start date: " ++ start_date_str ++ "."], false⟩
  | some sd =>
    match parse_date_input end_date_str with
    | none => ⟨[], ["Invalid end date: " ++ end_date_str ++ "."], false⟩
    | some ed =>
      if dateLtB ed sd then
        ⟨[], ["Start date must be earlier than or equal to end date."], false⟩
      else
        ⟨sortDesc (backend branch (isoFormat sd) (isoFormat ed)), [], true⟩

/-- Claim C4: whatever list the backend delivers and in whatever order, the
commit list returned by `get_commits_between_dates` is sorted by commit
timestamp descending (newest first); moreover on a valid date range it is
a permutation of exactly the backend-delivered commits. -/
theorem c4_commits_sorted_desc :
    ∀ (backend : String → String → String → List Commit) (branch ss es : String),
      List.Sorted commitGe (get_commits_between_dates backend branch ss es).commits ∧
      (∀ sd ed, parse_date_input ss = some sd → parse_date_input es = some ed →
        dateLtB ed sd = false →
        List.Perm (get_commits_between_dates backend branch ss es).commits
          (backend branch (isoFormat sd) (isoFormat ed))) := by
  intro backend branch ss es
  constructor
  · unfold get_commits_between_dates
    split
    · simp
    · split
      · simp
      · split
        · simp
        · exact List.sorted_insertionSort commitGe _
  · intro sd ed hs he hlt
    simp only [get_commits_between_dates, hs, he, hlt, Bool.false_eq_true,
      if_false, sortDesc]
    exact List.perm_insertionSort commitGe _

/-- Witness for C4: a backend handing back two commits oldest-first; the
query returns them newest-first. -/
theorem c4_witness :
    List.Sorted commitGe
      (get_commits_between_dates (fun _ _ _ => [⟨"a", 100, [], "m1"⟩, ⟨"b", 200, ["a"], "m2"⟩])
        "main" "01/01/2021" "05/01/2021").commits ∧
    List.Perm
      (get_commits_between_dates (fun _ _ _ => [⟨"a", 100, [], "m1"⟩, ⟨"b", 200, ["a"], "m2"⟩])
        "main" "01/01/2021" "05/01/2021").commits
      ((fun (_ _ _ : String) => [(⟨"a", 100, [], "m1"⟩ : Commit), ⟨"b", 200, ["a"], "m2"⟩])
        "main" (isoFormat ⟨1, 1, 2021⟩) (isoFormat ⟨5, 1, 2021⟩)) :=
  ⟨(c4_commits_sorted_desc _ "main" "01/01/2021" "05/01/2021").1,
   (c4_commits_sorted_desc _ "main" "01/01/2021" "05/01/2021").2
     ⟨1, 1, 2021⟩ ⟨5, 1, 2021⟩ (by decide) (by decide) (by decide)⟩

/-- Claim C5: when either date string fails to parse, or both parse but the
start date is strictly later than the end date, the range query returns an
empty commit list together with a diagnostic message, and the backend is
never invoked (hence no enumeration side effects and no exception from it);
the function itself is total, so no exception propagates to the caller. -/
theorem c5_invalid_range_no_backend :
    ∀ (backend : String → String → String → List Commit) (branch ss es : String),
      (parse_date_input ss = none ∨ parse_date_input es = none ∨
        ∃ sd ed, parse_date_input ss = some sd ∧ parse_date_input es = some ed ∧
          dateLtB ed sd = true) →
      (get_commits_between_dates backend branch ss es).commits = [] ∧
      (get_commits_between_dates backend branch ss es).msgs ≠ [] ∧
      (get_commits_between_dates backend branch ss es).backendCalled = false := by
  intro backend branch ss es h
  rcases h with h | h | ⟨sd, ed, hs, he, hlt⟩
  · simp [get_commits_between_dates, h]
  · unfold get_commits_between_dates
    cases hps : parse_date_input ss with
    | none => simp
    | some sd => simp [h]
  · simp [get_commits_between_dates, hs, he, hlt]

/-- Witness for C5: start date `05/01/2021` strictly later than end date
`01/01/2021`. -/
theorem c5_witness :
    (get_commits_between_dates (fun _ _ _ => [⟨"a", 100, [], "m1"⟩])
      "main" "05/01/2021" "01/01/2021").commits = [] ∧
    (get_commits_between_dates (fun _ _ _ => [⟨"a", 100, [], "m1"⟩])
      "main" "05/01/2021" "01/01/2021").msgs ≠ [] ∧
    (get_commits_between_dates (fun _ _ _ => [⟨"a", 100, [], "m1"⟩])
      "main" "05/01/2021" "01/01/2021").backendCalled = false :=
  c5_invalid_range_no_backend _ "main" "05/01/2021" "01/01/2021"
    (Or.inr (Or.inr ⟨⟨5, 1, 2021⟩, ⟨1, 1, 2021⟩, by decide, by decide, by decide⟩))

/-! ## Staging copier (`copy_files_to_staging`, source lines 44-65)

The filesystem environment is explicit: `fsExists f` is
`os.path.exists(os.path.join(repo_path, f))` and `copyFails f` says whether
`shutil.copy2` raises for that path (modelled atomically: a failed copy
leaves no destination file).  The staging directory is the set (as a
duplicate-free list) of relative paths currently present under
`staging_folder`; a successful copy inserts the path there and into the
returned `staged_files` set.  The result triple is
(staged set, new staging contents, printed messages). -/

def warnMissing (f : String) : String :=
  "Warning: File " ++ f ++ " does not exist in the working directory."

def errCopy (f : String) : String :=
  "Error copying " ++ f

def copy_files_to_staging (fsExists copyFails : String → Bool) :
    List String → List String → List String × List String × List String
  | [], staging => ([], staging, [])
  | f :: rest, staging =>
    if fsExists f then
      if copyFails f then
        let r := copy_files_to_staging fsExists copyFails rest staging
        (r.1, r.2.1, errCopy f :: r.2.2)
      else
        let r := copy_files_to_staging fsExists copyFails rest (fsInsert f staging)
        (fsInsert f r.1, r.2.1, r.2.2)
    else
      let r := copy_files_to_staging fsExists copyFails rest staging
      (r.1, r.2.1, warnMissing f :: r.2.2)

theorem copy_staged_indep (fsExists copyFails : String → Bool)
    (l : List String) (st1 st2 : List String) :
    (copy_files_to_staging fsExists copyFails l st1).1 =
      (copy_files_to_staging fsExists copyFails l st2).1 := by
  induction l generalizing st1 st2 with
  | nil => rfl
  | cons f rest ih =>
    simp only [copy_files_to_staging]
    split
    · split
      · exact ih st1 st2
      · rw [ih (fsInsert f st1) (fsInsert f st2)]
    · exact ih st1 st2

theorem copy_fst_ok (fsE cF : String → Bool) (f : String) (rest st : List String)
    (hex : fsE f = true) (hcf : cF f = false) :
    (copy_files_to_staging fsE cF (f :: rest) st).1
      = fsInsert f (copy_files_to_staging fsE cF rest (fsInsert f st)).1 := by
  simp [copy_files_to_staging, hex, hcf]

theorem copy_fst_err (fsE cF : String → Bool) (f : String) (rest st : List String)
    (hex : fsE f = true) (hcf : cF f = true) :
    (copy_files_to_staging fsE cF (f :: rest) st).1
      = (copy_files_to_staging fsE cF rest st).1 := by
  simp [copy_files_to_staging, hex, hcf]

theorem copy_fst_missing (fsE cF : String → Bool) (f : String) (rest st : List String)
    (hex : fsE f = false) :
    (copy_files_to_staging fsE cF (f :: rest) st).1
      = (copy_files_to_staging fsE cF rest st).1 := by
  simp [copy_files_to_staging, hex]

theorem copy_stg_ok (fsE cF : String → Bool) (f : String) (rest st : List String)
    (hex : fsE f = true) (hcf : cF f = false) :
    (copy_files_to_staging fsE cF (f :: rest) st).2.1
      = (copy_files_to_staging fsE cF rest (fsInsert f st)).2.1 := by
  simp [copy_files_to_staging, hex, hcf]

theorem copy_stg_err (fsE cF : String → Bool) (f : String) (rest st : List String)
    (hex : fsE f = true) (hcf : cF f = true) :
    (copy_files_to_staging fsE cF (f :: rest) st).2.1
      = (copy_files_to_staging fsE cF rest st).2.1 := by
  simp [copy_files_to_staging, hex, hcf]

theorem copy_stg_missing (fsE cF : String → Bool) (f : String) (rest st : List String)
    (hex : fsE f = false) :
    (copy_files_to_staging fsE cF (f :: rest) st).2.1
      = (copy_files_to_staging fsE cF rest st).2.1 := by
  simp [copy_files_to_staging, hex]

theorem copy_msg_ok (fsE cF : String → Bool) (f : String) (rest st : List String)
    (hex : fsE f = true) (hcf : cF f = false) :
    (copy_files_to_staging fsE cF (f :: rest) st).2.2
      = (copy_files_to_staging fsE cF rest (fsInsert f st)).2.2 := by
  simp [copy_files_to_staging, hex, hcf]

theorem copy_msg_err (fsE cF : String → Bool) (f : String) (rest st : List String)
    (hex : fsE f = true) (hcf : cF f = true) :
    (copy_files_to_staging fsE cF (f :: rest) st).2.2
      = errCopy f :: (copy_files_to_staging fsE cF rest st).2.2 := by
  simp [copy_files_to_staging, hex, hcf]

theorem copy_msg_missing (fsE cF : String → Bool) (f : String) (rest st : List String)
    (hex : fsE f = false) :
    (copy_files_to_staging fsE cF (f :: rest) st).2.2
      = warnMissing f :: (copy_files_to_staging fsE cF rest st).2.2 := by
  simp [copy_files_to_staging, hex]

theorem mem_copy_staged (fsE cF : String → Bool) (l : List String) (g : String) :
    ∀ st, g ∈ (copy_files_to_staging fsE cF l st).1 ↔
      g ∈ l ∧ fsE g = true ∧ cF g = false := by
  induction l with
  | nil => intro st; simp [copy_files_to_staging]
  | cons f rest ih =>
    intro st
    by_cases hex : fsE f = true
    · by_cases hcf : cF f = true
      · rw [copy_fst_err fsE cF f rest st hex hcf, ih st]
        simp only [List.mem_cons]
        constructor
        · rintro ⟨hm, h1, h2⟩
          exact ⟨Or.inr hm, h1, h2⟩
        · rintro ⟨hgf | hm, h1, h2⟩
          · rw [hgf, hcf] at h2
            exact absurd h2 (by decide)
          · exact ⟨hm, h1, h2⟩
      · rw [Bool.not_eq_true] at hcf
        rw [copy_fst_ok fsE cF f rest st hex hcf, mem_fsInsert, ih (fsInsert f st)]
        simp only [List.mem_cons]
        constructor
        · rintro (rfl | ⟨hm, h1, h2⟩)
          · exact ⟨Or.inl rfl, hex, hcf⟩
          · exact ⟨Or.inr hm, h1, h2⟩
        · rintro ⟨rfl | hm, h1, h2⟩
          · exact Or.inl rfl
          · exact Or.inr ⟨hm, h1, h2⟩
    · rw [Bool.not_eq_true] at hex
      rw [copy_fst_missing fsE cF f rest st hex, ih st]
      simp only [List.mem_cons]
      constructor
      · rintro ⟨hm, h1, h2⟩
        exact ⟨Or.inr hm, h1, h2⟩
      · rintro ⟨hgf | hm, h1, h2⟩
        · rw [hgf, hex] at h1
          exact absurd h1 (by decide)
        · exact ⟨hm, h1, h2⟩

theorem copy_stg_toFinset (fsE cF : String → Bool) (l : List String) :
    ∀ st, (copy_files_to_staging fsE cF l st).2.1.toFinset
      = st.toFinset ∪ (copy_files_to_staging fsE cF l st).1.toFinset := by
  induction l with
  | nil => intro st; simp [copy_files_to_staging]
  | cons f rest ih =>
    intro st
    by_cases hex : fsE f = true
    · by_cases hcf : cF f = true
      · rw [copy_stg_err fsE cF f rest st hex hcf,
          copy_fst_err fsE cF f rest st hex hcf, ih st]
      · rw [Bool.not_eq_true] at hcf
        rw [copy_stg_ok fsE cF f rest st hex hcf,
          copy_fst_ok fsE cF f rest st hex hcf, ih (fsInsert f st),
          toFinset_fsInsert, toFinset_fsInsert]
        ext a
        simp only [Finset.mem_union, Finset.mem_insert]
        tauto
    · rw [Bool.not_eq_true] at hex
      rw [copy_stg_missing fsE cF f rest st hex,
        copy_fst_missing fsE cF f rest st hex, ih st]

theorem copy_stg_noop (fsE cF : String → Bool) (l : List String) :
    ∀ st, (∀ g ∈ l, fsE g = true → cF g = false → g ∈ st) →
      (copy_files_to_staging fsE cF l st).2.1 = st := by
  induction l with
  | nil => intro st _; rfl
  | cons f rest ih =>
    intro st h
    have hrest : ∀ g ∈ rest, fsE g = true → cF g = false → g ∈ st :=
      fun g hg => h g (List.mem_cons_of_mem f hg)
    by_cases hex : fsE f = true
    · by_cases hcf : cF f = true
      · rw [copy_stg_err fsE cF f rest st hex hcf]
        exact ih st hrest
      · rw [Bool.not_eq_true] at hcf
        have hf : f ∈ st := h f (List.mem_cons_self f rest) hex hcf
        have hins : fsInsert f st = st := if_pos hf
        rw [copy_stg_ok fsE cF f rest st hex hcf, hins]
        exact ih st hrest
    · rw [Bool.not_eq_true] at hex
      rw [copy_stg_missing fsE cF f rest st hex]
      exact ih st hrest

theorem copy_msg_mem_warn (fsE cF : String → Bool) (l : List String) (f : String)
    (hex : fsE f = false) : ∀ st, f ∈ l →
    warnMissing f ∈ (copy_files_to_staging fsE cF l st).2.2 := by
  induction l with
  | nil => intro st h; cases h
  | cons g rest ih =>
    intro st hmem
    by_cases hgf : g = f
    · subst hgf
      rw [copy_msg_missing fsE cF g rest st hex]
      exact List.mem_cons_self _ _
    · have hrest : f ∈ rest := by
        rcases List.mem_cons.1 hmem with h | h
        · exact absurd h.symm hgf
        · exact h
      by_cases hexg : fsE g = true
      · by_cases hcfg : cF g = true
        · rw [copy_msg_err fsE cF g rest st hexg hcfg]
          exact List.mem_cons_of_mem _ (ih st hrest)
        · rw [Bool.not_eq_true] at hcfg
          rw [copy_msg_ok fsE cF g rest st hexg hcfg]
          exact ih (fsInsert g st) hrest
      · rw [Bool.not_eq_true] at hexg
        rw [copy_msg_missing fsE cF g rest st hexg]
        exact List.mem_cons_of_mem _ (ih st hrest)

theorem copy_msg_mem_err (fsE cF : String → Bool) (l : List String) (f : String)
    (hex : fsE f = true) (hcf : cF f = true) : ∀ st, f ∈ l →
    errCopy f ∈ (copy_files_to_staging fsE cF l st).2.2 := by
  induction l with
  | nil => intro st h; cases h
  | cons g rest ih =>
    intro st hmem
    by_cases hgf : g = f
    · subst hgf
      rw [copy_msg_err fsE cF g rest st hex hcf]
      exact List.mem_cons_self _ _
    · have hrest : f ∈ rest := by
        rcases List.mem_cons.1 hmem with h | h
        · exact absurd h.symm hgf
        · exact h
      by_cases hexg : fsE g = true
      · by_cases hcfg : cF g = true
        · rw [copy_msg_err fsE cF g rest st hexg hcfg]
          exact List.mem_cons_of_mem _ (ih st hrest)
        · rw [Bool.not_eq_true] at hcfg
          rw [copy_msg_ok fsE cF g rest st hexg hcfg]
          exact ih (fsInsert g st) hrest
      · rw [Bool.not_eq_true] at hexg
        rw [copy_msg_missing fsE cF g rest st hexg]
        exact List.mem_cons_of_mem _ (ih st hrest)

/-- Claim C10: the set returned by `copy_files_to_staging` contains exactly
those input paths whose source file exists in the working tree and whose
copy succeeds; in particular it is a subset of the input list and never
contains a path that was not in the input. -/
theorem c10_staged_exactly_successful :
    ∀ (fsExists copyFails : String → Bool) (changed staging : List String)
      (g : String),
      g ∈ (copy_files_to_staging fsExists copyFails changed staging).1 ↔
        g ∈ changed ∧ fsExists g = true ∧ copyFails g = false :=
  fun fsExists copyFails changed staging g =>
    mem_copy_staged fsExists copyFails changed g staging

/-- Claim C6: a per-file failure during staging — the file absent from the
working tree, or the copy failing for an environmental reason — emits a
message naming the file, excludes that file from the returned staged set,
and never aborts the batch: every remaining file in the list that exists
and copies cleanly is still staged, and the function returns normally (it
is total by construction). -/
theorem c6_per_file_failure_skips :
    ∀ (fsExists copyFails : String → Bool) (pre post : List String)
      (f : String) (staging : List String),
      fsExists f = false ∨ (fsExists f = true ∧ copyFails f = true) →
      f ∉ (copy_files_to_staging fsExists copyFails (pre ++ f :: post) staging).1 ∧
      (warnMissing f ∈
          (copy_files_to_staging fsExists copyFails (pre ++ f :: post) staging).2.2 ∨
        errCopy f ∈
          (copy_files_to_staging fsExists copyFails (pre ++ f :: post) staging).2.2) ∧
      (∀ g ∈ post, fsExists g = true → copyFails g = false →
        g ∈ (copy_files_to_staging fsExists copyFails (pre ++ f :: post) staging).1) := by
  intro fsExists copyFails pre post f staging h
  have hfmem : f ∈ pre ++ f :: post :=
    List.mem_append_right pre (List.mem_cons_self f post)
  refine ⟨?_, ?_, ?_⟩
  · intro hin
    rw [mem_copy_staged] at hin
    rcases h with h | ⟨_, h2⟩
    · rw [h] at hin
      exact absurd hin.2.1 (by decide)
    · rw [h2] at hin
      exact absurd hin.2.2 (by decide)
  · rcases h with h | ⟨h1, h2⟩
    · exact Or.inl (copy_msg_mem_warn fsExists copyFails _ f h staging hfmem)
    · exact Or.inr (copy_msg_mem_err fsExists copyFails _ f h1 h2 staging hfmem)
  · intro g hg hexg hcfg
    rw [mem_copy_staged]
    exact ⟨List.mem_append_right pre (List.mem_cons_of_mem f hg), hexg, hcfg⟩

/-- Witness for C6: staging `[a.txt, missing.txt, b.txt]` where
`missing.txt` is absent from the working tree — `a.txt` and `b.txt` are
still staged, a warning names the missing file, and it is not staged. -/
theorem c6_witness :
    "missing.txt" ∉ (copy_files_to_staging (fun s => !(s == "missing.txt"))
      (fun _ => false) (["a.txt"] ++ "missing.txt" :: ["b.txt"]) []).1 ∧
    (warnMissing "missing.txt" ∈ (copy_files_to_staging (fun s => !(s == "missing.txt"))
        (fun _ => false) (["a.txt"] ++ "missing.txt" :: ["b.txt"]) []).2.2 ∨
      errCopy "missing.txt" ∈ (copy_files_to_staging (fun s => !(s == "missing.txt"))
        (fun _ => false) (["a.txt"] ++ "missing.txt" :: ["b.txt"]) []).2.2) ∧
    (∀ g ∈ ["b.txt"], (fun s => !(s == "missing.txt")) g = true →
      (fun (_ : String) => false) g = false →
      g ∈ (copy_files_to_staging (fun s => !(s == "missing.txt"))
        (fun _ => false) (["a.txt"] ++ "missing.txt" :: ["b.txt"]) []).1) :=
  c6_per_file_failure_skips (fun s => !(s == "missing.txt")) (fun _ => false)
    ["a.txt"] ["b.txt"] "missing.txt" [] (Or.inl (by decide))

/-! ## Manifest writer (`create_manifest`, source lines 68-76)

`create_manifest` serialises `{"changed_files": list(staged_files)}` with
`json.dump` into `staging_folder/changes.json`.  The JSON document is
modelled as a small JSON syntax tree; the function produces an object with
the single key `changed_files` holding the array of staged paths. -/

inductive Json where
  | str : String → Json
  | arr : List Json → Json
  | obj : List (String × Json) → Json

def create_manifest (staged_files : List String) : Json :=
  Json.obj [("changed_files", Json.arr (staged_files.map Json.str))]

/-! ## The interactive selection loop (`main`, source lines 146-171)

Per iteration the operator input is stripped and lower-cased; `e` ends the
loop; otherwise `int(...)` is attempted (an optional sign followed by
digits, `ValueError` otherwise — modelled by `pyInt`); a parsed index is
checked against `0 <= index < len(commits)`; a valid index records the
selection, skips root commits with a diagnostic, computes
`git diff --name-only parent commit` via the `diffFn` oracle, and stages
the changed files, accumulating them into `overall_changed_files` via set
union.  `LoopState` carries `overall_changed_files`, the staging-directory
contents, `selected_commit_indices`, the printed messages and the
loop-termination flag. -/

def pySpace (c : Char) : Bool :=
  c = ' ' || c = '\t' || c = '\n' || c = '\r' || c = '\x0b' || c = '\x0c'

def pyStrip (s : String) : String :=
  String.mk (((s.data.dropWhile pySpace).reverse.dropWhile pySpace).reverse)

def pyLowerChar (c : Char) : Char :=
  if 'A' ≤ c ∧ c ≤ 'Z' then Char.ofNat (c.toNat + 32) else c

def pyLower (s : String) : String :=
  String.mk (s.data.map pyLowerChar)

def digitsVal (cs : List Char) : Option Nat :=
  if cs ≠ [] ∧ allDigits cs = true then some (natOfDigits cs) else none

def pyInt (s : String) : Option Int :=
  match s.data with
  | '-' :: rest => (digitsVal rest).map (fun n => -(n : Int))
  | '+' :: rest => (digitsVal rest).map (fun n => (n : Int))
  | cs => (digitsVal cs).map (fun n => (n : Int))

inductive LoopAction where
  | finish
  | invalid
  | outOfRange
  | select (idx : Nat)
deriving DecidableEq, Repr

def interpretInput (raw : String) (n : Nat) : LoopAction :=
  if pyLower (pyStrip raw) = "e" then LoopAction.finish
  else
    match pyInt (pyLower (pyStrip raw)) with
    | none => LoopAction.invalid
    | some i =>
      if 0 ≤ i ∧ i < (n : Int) then LoopAction.select i.toNat else LoopAction.outOfRange

def defaultCommit : Commit := ⟨"", 0, [], ""⟩

def skipMsg : String := "Commit has no parent (initial commit), skipping."

def invalidMsg : String := "Invalid input. Please enter a valid number or e."

def rangeMsg : String := "Index out of range. Please enter a valid index."

def noChangesMsg : String := "No changed files in commit."

def stagedMsg : String := "Staged files from commit."

structure LoopState where
  overall : List String
  stagingDir : List String
  selected : List Nat
  msgs : List String
  finished : Bool
deriving Repr

def loopStep (commits : List Commit) (diffFn : String → String → List String)
    (fsE cF : String → Bool) (s : LoopState) (raw : String) : LoopState :=
  match interpretInput raw commits.length with
  | LoopAction.finish => ⟨s.overall, s.stagingDir, s.selected, s.msgs, true⟩
  | LoopAction.invalid =>
    ⟨s.overall, s.stagingDir, s.selected, s.msgs ++ [invalidMsg], s.finished⟩
  | LoopAction.outOfRange =>
    ⟨s.overall, s.stagingDir, s.selected, s.msgs ++ [rangeMsg], s.finished⟩
  | LoopAction.select idx =>
    match (commits.getD idx defaultCommit).parents with
    | [] =>
      ⟨s.overall, s.stagingDir, s.selected ++ [idx], s.msgs ++ [skipMsg], s.finished⟩
    | p :: _ =>
      match diffFn p (commits.getD idx defaultCommit).hexsha with
      | [] =>
        ⟨s.overall, s.stagingDir, s.selected ++ [idx], s.msgs ++ [noChangesMsg],
          s.finished⟩
      | cf :: cfs =>
        ⟨setUnion s.overall
            (copy_files_to_staging fsE cF (cf :: cfs) s.stagingDir).1,
          (copy_files_to_staging fsE cF (cf :: cfs) s.stagingDir).2.1,
          s.selected ++ [idx],
          s.msgs ++ (copy_files_to_staging fsE cF (cf :: cfs) s.stagingDir).2.2
            ++ [stagedMsg],
          s.finished⟩

def runLoop (commits : List Commit) (diffFn : String → String → List String)
    (fsE cF : String → Bool) : LoopState → List String → LoopState
  | s, [] => s
  | s, raw :: rest =>
    if s.finished then s
    else runLoop commits diffFn fsE cF (loopStep commits diffFn fsE cF s raw) rest

def initState : LoopState := ⟨[], [], [], [], false⟩

/-- Claim C9: the termination check strips surrounding whitespace and
lower-cases the operator input before comparing it to `e`, so any input
whose stripped, lower-cased form is `e` (such as `E` or ` e `) terminates
the loop — it only sets the finished flag, stages nothing, and is never
treated as an invalid entry (no diagnostic is appended). -/
theorem c9_termination_token_normalised :
    ∀ (commits : List Commit) (diffFn : String → String → List String)
      (fsE cF : String → Bool) (s : LoopState) (raw : String),
      pyLower (pyStrip raw) = "e" →
      loopStep commits diffFn fsE cF s raw = { s with finished := true } := by
  intro commits diffFn fsE cF s raw h
  simp [loopStep, interpretInput, h]

/-- Witness for C9 at the concrete input `" E "`. -/
theorem c9_witness :
    loopStep [] (fun _ _ => []) (fun _ => true) (fun _ => false) initState " E "
      = { initState with finished := true } :=
  c9_termination_token_normalised [] (fun _ _ => []) (fun _ => true)
    (fun _ => false) initState " E " (by decide)

/-- Claim C7: selecting a commit with no parents (a root commit) records
the selection and appends the skip diagnostic but stages no files (the
accumulated set and the staging directory are untouched), raises no error
(the step is total), and leaves the finished flag unchanged so the loop
keeps accepting input. -/
theorem c7_root_commit_skipped :
    ∀ (commits : List Commit) (diffFn : String → String → List String)
      (fsE cF : String → Bool) (s : LoopState) (raw : String) (idx : Nat),
      interpretInput raw commits.length = LoopAction.select idx →
      (commits.getD idx defaultCommit).parents = [] →
      loopStep commits diffFn fsE cF s raw =
        ⟨s.overall, s.stagingDir, s.selected ++ [idx], s.msgs ++ [skipMsg],
          s.finished⟩ := by
  intro commits diffFn fsE cF s raw idx hA hP
  simp only [loopStep, hA, hP]

/-- Witness for C7: a one-commit list whose commit is a root commit,
selected by entering `0`. -/
theorem c7_witness :
    loopStep [⟨"root", 5, [], "init"⟩] (fun _ _ => ["x.txt"]) (fun _ => true)
      (fun _ => false) initState "0"
      = ⟨initState.overall, initState.stagingDir, initState.selected ++ [0],
          initState.msgs ++ [skipMsg], initState.finished⟩ :=
  c7_root_commit_skipped [⟨"root", 5, [], "init"⟩] (fun _ _ => ["x.txt"])
    (fun _ => true) (fun _ => false) initState "0" 0 (by decide) (by decide)

/-! ## Re-selection idempotence machinery

`ObsEq` relates two loop states that agree on everything `loopStep` reads
and the pipeline later consumes: the accumulated staged set, the staging
directory and the finished flag (the message log and the selected-index
log are only appended to and never read back). -/

def ObsEq (s1 s2 : LoopState) : Prop :=
  s1.overall = s2.overall ∧ s1.stagingDir = s2.stagingDir ∧
    s1.finished = s2.finished

theorem loopStep_obs (commits : List Commit)
    (diffFn : String → String → List String) (fsE cF : String → Bool)
    (s1 s2 : LoopState) (raw : String) (h : ObsEq s1 s2) :
    ObsEq (loopStep commits diffFn fsE cF s1 raw)
      (loopStep commits diffFn fsE cF s2 raw) := by
  obtain ⟨h1, h2, h3⟩ := h
  unfold loopStep
  cases interpretInput raw commits.length with
  | finish => exact ⟨h1, h2, rfl⟩
  | invalid => exact ⟨h1, h2, h3⟩
  | outOfRange => exact ⟨h1, h2, h3⟩
  | select idx =>
    dsimp only
    cases (commits.getD idx defaultCommit).parents with
    | nil => exact ⟨h1, h2, h3⟩
    | cons p ps =>
      dsimp only
      cases diffFn p (commits.getD idx defaultCommit).hexsha with
      | nil => exact ⟨h1, h2, h3⟩
      | cons cf cfs =>
        exact ⟨by dsimp only; rw [h1, h2], by dsimp only; rw [h2], h3⟩

theorem runLoop_obs (commits : List Commit)
    (diffFn : String → String → List String) (fsE cF : String → Bool)
    (inputs : List String) : ∀ s1 s2 : LoopState, ObsEq s1 s2 →
    ObsEq (runLoop commits diffFn fsE cF s1 inputs)
      (runLoop commits diffFn fsE cF s2 inputs) := by
  induction inputs with
  | nil => intro s1 s2 h; exact h
  | cons raw rest ih =>
    intro s1 s2 h
    simp only [runLoop]
    rw [← h.2.2]
    by_cases hf : s1.finished = true
    · rw [if_pos hf, if_pos hf]
      exact h
    · rw [if_neg hf, if_neg hf]
      exact ih _ _ (loopStep_obs commits diffFn fsE cF s1 s2 raw h)

theorem runLoop_finished (commits : List Commit)
    (diffFn : String → String → List String) (fsE cF : String → Bool)
    (inputs : List String) (s : LoopState) (h : s.finished = true) :
    runLoop commits diffFn fsE cF s inputs = s := by
  cases inputs with
  | nil => rfl
  | cons raw rest => simp [runLoop, h]

theorem loopStep_twice (commits : List Commit)
    (diffFn : String → String → List String) (fsE cF : String → Bool)
    (s : LoopState) (raw : String) :
    ObsEq (loopStep commits diffFn fsE cF (loopStep commits diffFn fsE cF s raw) raw)
      (loopStep commits diffFn fsE cF s raw) := by
  unfold loopStep
  cases interpretInput raw commits.length with
  | finish => exact ⟨rfl, rfl, rfl⟩
  | invalid => exact ⟨rfl, rfl, rfl⟩
  | outOfRange => exact ⟨rfl, rfl, rfl⟩
  | select idx =>
    dsimp only
    cases (commits.getD idx defaultCommit).parents with
    | nil => exact ⟨rfl, rfl, rfl⟩
    | cons p ps =>
      dsimp only
      cases hdf : diffFn p (commits.getD idx defaultCommit).hexsha with
      | nil => exact ⟨rfl, rfl, rfl⟩
      | cons cf cfs =>
        refine ⟨?_, ?_, rfl⟩
        · dsimp only
          rw [copy_staged_indep fsE cF (cf :: cfs)
            (copy_files_to_staging fsE cF (cf :: cfs) s.stagingDir).2.1 s.stagingDir]
          refine setUnion_absorb _ _ ?_
          intro a ha
          rw [mem_setUnion]
          exact Or.inr ha
        · dsimp only
          refine copy_stg_noop fsE cF (cf :: cfs) _ ?_
          intro g hg hexg hcfg
          have hstg := copy_stg_toFinset fsE cF (cf :: cfs) s.stagingDir
          have hmem : g ∈ (copy_files_to_staging fsE cF (cf :: cfs) s.stagingDir).1 :=
            (mem_copy_staged fsE cF (cf :: cfs) g s.stagingDir).2 ⟨hg, hexg, hcfg⟩
          rw [← List.mem_toFinset, hstg, Finset.mem_union]
          exact Or.inr (List.mem_toFinset.2 hmem)

/-- Claim C8: for every commit list, diff oracle, filesystem environment,
starting state and position in the input sequence, feeding the selection
loop the same entry twice in a row yields the same final accumulated
staged-file set as feeding it once — re-selecting a commit index re-stages
the same paths and the set union leaves the accumulated set unchanged. -/
theorem c8_reselect_idempotent :
    ∀ (commits : List Commit) (diffFn : String → String → List String)
      (fsE cF : String → Bool) (s : LoopState) (pre : List String)
      (raw : String) (suf : List String),
      (runLoop commits diffFn fsE cF s (pre ++ raw :: raw :: suf)).overall =
        (runLoop commits diffFn fsE cF s (pre ++ raw :: suf)).overall := by
  intro commits diffFn fsE cF s pre raw suf
  induction pre generalizing s with
  | nil =>
    simp only [List.nil_append, runLoop]
    by_cases hf : s.finished = true
    · rw [if_pos hf, if_pos hf]
    · rw [if_neg hf, if_neg hf]
      by_cases hf2 : (loopStep commits diffFn fsE cF s raw).finished = true
      · rw [runLoop_finished commits diffFn fsE cF suf _ hf2]
        cases suf with
        | nil =>
          simp only [runLoop]
          rw [if_pos hf2]
        | cons r rest =>
          simp only [runLoop]
          rw [if_pos hf2]
      · have hobs := runLoop_obs commits diffFn fsE cF suf
          (loopStep commits diffFn fsE cF (loopStep commits diffFn fsE cF s raw) raw)
          (loopStep commits diffFn fsE cF s raw)
          (loopStep_twice commits diffFn fsE cF s raw)
        rw [if_neg hf2]
        exact hobs.1
  | cons r pre ih =>
    simp only [List.cons_append, runLoop]
    by_cases hf : s.finished = true
    · rw [if_pos hf, if_pos hf]
    · rw [if_neg hf, if_neg hf]
      exact ih (loopStep commits diffFn fsE cF s r)

/-! ## The manifest matches the staging directory (C2)

At manifest-write time `overall_changed_files` holds, as a set, exactly
the relative paths physically present in the staging directory: the
staging directory starts empty (it is deleted and recreated at the start
of each run, source lines 138-141), and every loop iteration adds the same
successfully copied paths to both. -/

def stagingInv (s : LoopState) : Prop :=
  s.overall.toFinset = s.stagingDir.toFinset

theorem loopStep_inv (commits : List Commit)
    (diffFn : String → String → List String) (fsE cF : String → Bool)
    (s : LoopState) (raw : String) (h : stagingInv s) :
    stagingInv (loopStep commits diffFn fsE cF s raw) := by
  unfold stagingInv at *
  unfold loopStep
  cases interpretInput raw commits.length with
  | finish => exact h
  | invalid => exact h
  | outOfRange => exact h
  | select idx =>
    dsimp only
    cases (commits.getD idx defaultCommit).parents with
    | nil => exact h
    | cons p ps =>
      dsimp only
      cases diffFn p (commits.getD idx defaultCommit).hexsha with
      | nil => exact h
      | cons cf cfs =>
        dsimp only
        rw [toFinset_setUnion, copy_stg_toFinset, h]

theorem runLoop_inv (commits : List Commit)
    (diffFn : String → String → List String) (fsE cF : String → Bool)
    (inputs : List String) : ∀ s : LoopState, stagingInv s →
    stagingInv (runLoop commits diffFn fsE cF s inputs) := by
  induction inputs with
  | nil => intro s h; exact h
  | cons raw rest ih =>
    intro s h
    simp only [runLoop]
    by_cases hf : s.finished = true
    · rw [if_pos hf]; exact h
    · rw [if_neg hf]
      exact ih _ (loopStep_inv commits diffFn fsE cF s raw h)

/-- Claim C2: after any run of the selection loop from the freshly created
(empty) staging directory, the manifest written by `create_manifest` is a
JSON object with the single key `changed_files` holding the array of
accumulated staged paths, and that array lists (as a set) exactly the
files physically present in the staging directory at the moment the
manifest is written. -/
theorem c2_manifest_matches_staging :
    ∀ (commits : List Commit) (diffFn : String → String → List String)
      (fsE cF : String → Bool) (inputs : List String),
      create_manifest (runLoop commits diffFn fsE cF initState inputs).overall =
        Json.obj [("changed_files", Json.arr
          ((runLoop commits diffFn fsE cF initState inputs).overall.map Json.str))] ∧
      (runLoop commits diffFn fsE cF initState inputs).overall.toFinset =
        (runLoop commits diffFn fsE cF initState inputs).stagingDir.toFinset := by
  intro commits diffFn fsE cF inputs
  exact ⟨rfl, runLoop_inv commits diffFn fsE cF inputs initState rfl⟩

/-! ## Archiver (`zip_staging_folder`, source lines 79-89)

The staging directory is a finite directory tree (`FsTree`: the files in a
directory plus its named subdirectories).  `os.walk` visits the root
directory and then every subdirectory recursively; for each regular file
the code computes `abs_path = os.path.join(root, file)` and the entry name
`rel_path = os.path.relpath(abs_path, staging_folder)` and writes the file
at that entry name.  Paths are modelled as component lists; `join` is list
append and `relpath` below a prefix is dropping the prefix components.
`treeFiles` is the set (list) of all files present recursively under a
directory, as staging-relative paths. -/

mutual
inductive FsTree : Type where
  | node (files : List String) (dirs : FsForest)
inductive FsForest : Type where
  | nil
  | cons (dname : String) (t : FsTree) (rest : FsForest)
end

mutual
def treeFiles : FsTree → List (List String)
  | .node fs ds => fs.map (fun f => [f]) ++ forestFiles ds
def forestFiles : FsForest → List (List String)
  | .nil => []
  | .cons dname t rest => (treeFiles t).map (fun p => dname :: p) ++ forestFiles rest
end

mutual
def zipTree (n : Nat) (walkRoot : List String) : FsTree → List (List String)
  | .node fs ds =>
    fs.map (fun f => (walkRoot ++ [f]).drop n) ++ zipForest n walkRoot ds
def zipForest (n : Nat) (walkRoot : List String) : FsForest → List (List String)
  | .nil => []
  | .cons dname t rest =>
    zipTree n (walkRoot ++ [dname]) t ++ zipForest n walkRoot rest
end

def zip_staging_folder (staging_folder : List String) (tree : FsTree) :
    List (List String) :=
  zipTree staging_folder.length staging_folder tree

mutual
theorem zipTree_eq (n : Nat) (pfx : List String) (h : n ≤ pfx.length) :
    (t : FsTree) → zipTree n pfx t = (treeFiles t).map (fun p => pfx.drop n ++ p)
  | .node fs ds => by
    simp only [zipTree, treeFiles, List.map_append, List.map_map]
    refine congrArg₂ (· ++ ·) ?_ (zipForest_eq n pfx h ds)
    apply List.map_congr_left
    intro f _
    simp [Function.comp, List.drop_append_of_le_length h]
theorem zipForest_eq (n : Nat) (pfx : List String) (h : n ≤ pfx.length) :
    (ds : FsForest) → zipForest n pfx ds
      = (forestFiles ds).map (fun p => pfx.drop n ++ p)
  | .nil => rfl
  | .cons dname t rest => by
    have h' : n ≤ (pfx ++ [dname]).length := by
      simp only [List.length_append, List.length_singleton]
      omega
    simp only [zipForest, forestFiles, List.map_append, List.map_map]
    refine congrArg₂ (· ++ ·) ?_ (zipForest_eq n pfx h rest)
    rw [zipTree_eq n (pfx ++ [dname]) h' t]
    apply List.map_congr_left
    intro p _
    simp [Function.comp, List.drop_append_of_le_length h]
end

/-- Claim C1: for every state of the staging directory tree at archiving
time, the archive produced by `zip_staging_folder` contains one entry for
every file present recursively under the staging root, named by that
file's path relative to the staging root, and no other entries — the entry
list is exactly `treeFiles`. -/
theorem c1_archive_entries_exact :
    ∀ (staging_folder : List String) (tree : FsTree),
      zip_staging_folder staging_folder tree = treeFiles tree := by
  intro staging_folder tree
  unfold zip_staging_folder
  rw [zipTree_eq staging_folder.length staging_folder (Nat.le_refl _) tree]
  simp [List.drop_length]
